import Mathlib

/-!
# node `src/node_util.cc`: the weak reference handle, its snapshot codec and `ToUSVString`

A shallow embedding of three pieces of `src/node_util.cc`:

* `ToUSVString` (lines 349-381) with the character tests of lines 43-53;
* `WeakReference` (constructor, `Get`, `IncRef`, `DecRef`, lines 204-222 and 281-305);
* `WeakReference::PrepareForSerialization`, `Serialize`, `Deserialize` (lines 224-272).

Conventions.  A `char16_t` is a natural number below `2 ^ 16`, a `uint64_t` a natural
number below `2 ^ 64` with explicit reduction where the code can wrap.  A `CHECK` that
fails, and `ToLocalChecked` on an empty handle, abort the process: the embedding returns
`Except.error` with the `Fault` that names the abort.  A callback that returns without
calling `args.GetReturnValue().Set` hands `undefined` to the caller: the embedding
returns `none`.  A count handed to `v8::Number::New` is converted to a `double` on the
way; the embedding returns the integer that this `double` stands for.
-/

namespace node.util

/-! ## Fatal failures -/

/-- The ways in which the embedded code aborts the process. -/
inductive Fault where
  /-- A `CHECK`, `CHECK_GE` or `DCHECK_NE` whose condition is false. -/
  | checkFailed
  /-- An index outside the buffer: `MaybeStackBuffer::operator[]` checks `index < length()`. -/
  | outOfBounds
  /-- The call `ToLocalChecked()` on an empty `MaybeLocal`. -/
  | emptyMaybeLocal
  deriving DecidableEq, Repr

/-! ## The sanitizer `ToUSVString` -/

/-- Line 44: `constexpr char16_t kUnicodeReplacementCharacter = 0xFFFD`. -/
def kUnicodeReplacementCharacter : Nat := 0xFFFD

/-- Line 47: `CHAR_TEST(16, IsUnicodeTrail, (ch & 0xFC00) == 0xDC00)`. -/
def IsUnicodeTrail (ch : Nat) : Bool := (ch &&& 0xFC00) == 0xDC00

/-- Line 50: `CHAR_TEST(16, IsUnicodeSurrogate, (ch & 0xF800) == 0xD800)`. -/
def IsUnicodeSurrogate (ch : Nat) : Bool := (ch &&& 0xF800) == 0xD800

/-- Line 53: `CHAR_TEST(16, IsUnicodeSurrogateTrail, (ch & 0x400) != 0)`. -/
def IsUnicodeSurrogateTrail (ch : Nat) : Bool := (ch &&& 0x400) != 0

/-- The read `value[i]` of a `TwoByteValue`: fatal when `i` is not below the length. -/
def readAt (value : List Nat) (i : Nat) : Except Fault Nat :=
  match value[i]? with
  | some c => .ok c
  | none => .error .outOfBounds

/-- The write `value[i] = v` of a `TwoByteValue`: fatal when `i` is not below the length. -/
def writeAt (value : List Nat) (i : Nat) (v : Nat) : Except Fault (List Nat) :=
  if i < value.length then .ok (value.set i v) else .error .outOfBounds

/-- Lines 360-374: the loop `for (size_t i = start; i < value.length(); i++)`, entered at
index `i` with buffer `value`.  Each branch continues at the index the C++ loop reaches
after its own `i++`.  `value.length() - 1` is evaluated only inside the loop, where the
length is at least one, so the truncated subtraction agrees with the `size_t` one. -/
def usvLoop (value : List Nat) (i : Nat) : Except Fault (List Nat) :=
  if i < value.length then
    match readAt value i with
    | .error e => .error e
    | .ok c =>
      if !IsUnicodeSurrogate c then
        usvLoop value (i + 1)
      else if IsUnicodeSurrogateTrail c || i == value.length - 1 then
        match h : writeAt value i kUnicodeReplacementCharacter with
        | .error e => .error e
        | .ok value1 => usvLoop value1 (i + 1)
      else
        match readAt value (i + 1) with
        | .error e => .error e
        | .ok d =>
          if IsUnicodeTrail d then
            usvLoop value (i + 1 + 1)
          else
            match h : writeAt value i kUnicodeReplacementCharacter with
            | .error e => .error e
            | .ok value1 => usvLoop value1 (i + 1)
  else
    .ok value
termination_by value.length - i
decreasing_by
  all_goals simp_wf
  · omega
  · have hl : value1.length = value.length := by
      by_cases hw : i < value.length
      · simp only [writeAt, hw, if_true, Except.ok.injEq] at h
        rw [← h, List.length_set]
      · simp [writeAt, hw] at h
    omega
  · omega
  · have hl : value1.length = value.length := by
      by_cases hw : i < value.length
      · simp only [writeAt, hw, if_true, Except.ok.injEq] at h
        rw [← h, List.length_set]
      · simp [writeAt, hw] at h
    omega

/-- Lines 349-381 of `ToUSVString`, on the code units of `args[0]` and the integer
`start` read from `args[1]` (an `int64_t`): `CHECK_GE(start, 0)`, then the loop from
`start`; the buffer after the loop is the string handed back.  The checks on the number
and the types of the arguments are the types of the two parameters. -/
def ToUSVString (value : List Nat) (start : Int) : Except Fault (List Nat) :=
  if 0 ≤ start then usvLoop value start.toNat else .error .checkFailed

/-- The loop of `ToUSVString` read as a recursion over the suffix that is still to be
scanned, with the tests of the source.  It is a proof device: `usvLoop_eq` shows that the
in-place loop computes it. -/
def scanUnits : List Nat → List Nat
  | [] => []
  | [c] =>
    if !IsUnicodeSurrogate c then [c] else [kUnicodeReplacementCharacter]
  | c :: d :: rest =>
    if !IsUnicodeSurrogate c then c :: scanUnits (d :: rest)
    else if IsUnicodeSurrogateTrail c then kUnicodeReplacementCharacter :: scanUnits (d :: rest)
    else if IsUnicodeTrail d then c :: d :: scanUnits rest
    else kUnicodeReplacementCharacter :: scanUnits (d :: rest)

/-! ### The scan of the specification -/

/-- A lead surrogate in the words of the specification: the range `0xD800`-`0xDBFF`. -/
def isLeadSurrogate (c : Nat) : Bool := decide (0xD800 ≤ c ∧ c ≤ 0xDBFF)

/-- A trail surrogate in the words of the specification: the range `0xDC00`-`0xDFFF`. -/
def isTrailSurrogate (c : Nat) : Bool := decide (0xDC00 ≤ c ∧ c ≤ 0xDFFF)

/-- Rules 1-4 of the specification, as a left-to-right scan of a sequence:
a non-surrogate is kept, a lead immediately followed by a trail is kept together with
that trail, a lead not immediately followed by a trail becomes `0xFFFD`, and a trail
reached by the scan becomes `0xFFFD`. -/
def referenceScan : List Nat → List Nat
  | [] => []
  | [c] =>
    if isLeadSurrogate c || isTrailSurrogate c then [0xFFFD] else [c]
  | c :: d :: rest =>
    if isLeadSurrogate c then
      if isTrailSurrogate d then c :: d :: referenceScan rest
      else 0xFFFD :: referenceScan (d :: rest)
    else if isTrailSurrogate c then 0xFFFD :: referenceScan (d :: rest)
    else c :: referenceScan (d :: rest)

/-- The sanitizer of the specification: the units before `start` are copied, the rest is
scanned by rules 1-4. -/
def sanitizeSpec (s : List Nat) (start : Nat) : List Nat :=
  s.take start ++ referenceScan (s.drop start)

/-- A scalar-value string in the words of the specification: no unpaired surrogate, that
is, every lead surrogate is immediately followed by a trail surrogate and every trail
surrogate is immediately preceded by a lead surrogate. -/
def IsScalarValueString (out : List Nat) : Prop :=
  (∀ (i c : Nat), out[i]? = some c → isLeadSurrogate c = true →
      ∃ d, out[i + 1]? = some d ∧ isTrailSurrogate d = true) ∧
  (∀ (i c : Nat), out[i]? = some c → isTrailSurrogate c = true →
      ∃ (j d : Nat), i = j + 1 ∧ out[j]? = some d ∧ isLeadSurrogate d = true)

/-- A sequence of 16-bit code units. -/
def IsChar16 (s : List Nat) : Prop := ∀ c ∈ s, c < 65536

instance (s : List Nat) : Decidable (IsChar16 s) := by
  unfold IsChar16
  infer_instance

/-- A sequence built from non-surrogate units and from lead-trail pairs only. -/
inductive Paired : List Nat → Prop where
  | nil : Paired []
  | scalar (c : Nat) (l : List Nat) : isLeadSurrogate c = false → isTrailSurrogate c = false →
      Paired l → Paired (c :: l)
  | pair (c d : Nat) (l : List Nat) : isLeadSurrogate c = true → isTrailSurrogate d = true →
      Paired l → Paired (c :: d :: l)

/-! ## The weak reference handle -/

/-- A JavaScript object, by identity. -/
abbrev Obj := Nat

/-- Modelled from the spec: the host's weak handle primitive `v8::Global<v8::Object>`,
declared outside `src/node_util.cc`: a reference that is empty, or holds its target either
strongly (the target is pinned alive) or weakly (the target may be collected, and the
handle is then cleared). -/
inductive Global where
  | empty
  | strong (o : Obj)
  | weak (o : Obj)
  deriving DecidableEq, Repr

namespace Global

/-- The test `target_.IsEmpty()`. -/
def IsEmpty : Global → Bool
  | empty => true
  | _ => false

/-- The read `target_.Get(isolate)`: the target, or an empty `Local`. -/
def Get : Global → Option Obj
  | empty => none
  | strong o => some o
  | weak o => some o

/-- The call `target_.SetWeak()`. -/
def SetWeak : Global → Global
  | empty => empty
  | strong o => weak o
  | weak o => weak o

/-- The call `target_.ClearWeak()`. -/
def ClearWeak : Global → Global
  | empty => empty
  | strong o => strong o
  | weak o => strong o

/-- The target is held in strong mode. -/
def IsStrong : Global → Bool
  | strong _ => true
  | _ => false

/-- The target is held in weak mode; the primitive calls this `IsWeak()`. -/
def IsWeak : Global → Bool
  | weak _ => true
  | _ => false

/-- A garbage collection that reclaims the target of a weak handle clears the handle; a
strong handle keeps its target. -/
def collect : Global → Global
  | weak _ => empty
  | g => g

end Global

/-- The number of low bits that a `double` cannot keep of an integer `n` with
`2 ^ 53 ≤ n < 2 ^ 64`: the least `e` with `n < 2 ^ (53 + e)`. -/
def droppedBits (n : Nat) : Nat :=
  ((List.range 12).find? (fun e => decide (n < 2 ^ (53 + e)))).getD 11

/-- The multiple of `2 ^ e` nearest to `n`, the one with the even quotient when `n` lies
half way between two of them. -/
def roundToEven (e n : Nat) : Nat :=
  if n % 2 ^ e < 2 ^ e / 2 then n / 2 ^ e * 2 ^ e
  else if 2 ^ e / 2 < n % 2 ^ e then (n / 2 ^ e + 1) * 2 ^ e
  else if n / 2 ^ e % 2 = 0 then n / 2 ^ e * 2 ^ e
  else (n / 2 ^ e + 1) * 2 ^ e

/-- The conversion of a `uint64_t` to the `double` parameter of `v8::Number::New`
(lines 293-294 and 303-304), as the integer that the `double` stands for: a binary64
value has 53 significant bits, so an integer below `2 ^ 53` is kept and a larger one is
rounded to the nearest value with 53 significant bits, ties to the even one. -/
def uint64ToDouble (n : Nat) : Nat :=
  if n < 2 ^ 53 then n else roundToEven (droppedBits n) n

/-- The fields of `WeakReference` that the embedded methods use: `target_`,
`reference_count_` (a `uint64_t`) and `target_index_`. -/
structure WeakReference where
  target_ : Global
  reference_count_ : Nat
  target_index_ : Nat
  deriving DecidableEq, Repr

namespace WeakReference

/-- Lines 209-222, the constructor `WeakReference::WeakReference` with an explicit count
(the type already bears its name here): `target` is `none` for an empty `Local<Object>`.  `target_.Reset(isolate, target)` holds the target strongly, and
`SetWeak()` follows when the count is zero. -/
def ctor (target : Option Obj) (reference_count : Nat) : WeakReference :=
  match target with
  | none =>
    { target_ := Global.empty, reference_count_ := reference_count, target_index_ := 0 }
  | some o =>
    { target_ := if reference_count == 0 then (Global.strong o).SetWeak else Global.strong o,
      reference_count_ := reference_count,
      target_index_ := 0 }

/-- Lines 204-207, the constructor without a count, which delegates with count `0`; the
specification calls it `Create`. -/
def Create (target : Option Obj) : WeakReference :=
  ctor target 0

/-- Lines 274-279, the script-visible constructor: `CHECK(args[0]->IsObject())`, then the
constructor without a count.  `arg` is `none` when `args[0]` is not an object. -/
def New (arg : Option Obj) : Except Fault WeakReference :=
  match arg with
  | none => .error .checkFailed
  | some o => .ok (Create (some o))

/-- Lines 281-286: `Get` sets the return value to the target when `target_` is not empty;
`none` is the `undefined` the caller sees otherwise. -/
def Get (w : WeakReference) : Option Obj :=
  if !w.target_.IsEmpty then w.target_.Get else none

/-- Lines 288-295: the handle after `IncRef` and the value handed to the caller.  The
increment is that of a `uint64_t`.  The value is the count as `v8::Number::New` receives
it, converted to a `double`; `none` stands for a return without
`GetReturnValue().Set`. -/
def IncRef (w : WeakReference) : WeakReference × Option Nat :=
  let w1 := { w with reference_count_ := (w.reference_count_ + 1) % 2 ^ 64 }
  if w1.target_.IsEmpty then (w1, none)
  else
    let w2 := if w1.reference_count_ == 1 then { w1 with target_ := w1.target_.ClearWeak } else w1
    (w2, some (uint64ToDouble w2.reference_count_))

/-- Lines 297-305: the handle at the point where `DecRef` returns or aborts, and the
outcome: `CHECK_GE(reference_count_, 1)` aborts before anything is written; otherwise
the value handed to the caller, as for `IncRef`. -/
def DecRef (w : WeakReference) : WeakReference × Except Fault (Option Nat) :=
  if 1 ≤ w.reference_count_ then
    let w1 := { w with reference_count_ := w.reference_count_ - 1 }
    if w1.target_.IsEmpty then (w1, .ok none)
    else
      let w2 := if w1.reference_count_ == 0 then { w1 with target_ := w1.target_.SetWeak } else w1
      (w2, .ok (some (uint64ToDouble w2.reference_count_)))
  else (w, .error .checkFailed)

/-- A garbage collection between two calls. -/
def collect (w : WeakReference) : WeakReference :=
  { w with target_ := w.target_.collect }

end WeakReference

/-- What can happen to a handle between its creation and an observation: a call of
`incRef()`, a call of `decRef()`, or a garbage collection. -/
inductive Call where
  | IncRef
  | DecRef
  | collect
  deriving DecidableEq, Repr

/-- One event applied to a handle; a fatal `DecRef` ends the run. -/
def WeakReference.step (w : WeakReference) : Call → Except Fault WeakReference
  | .IncRef => .ok w.IncRef.1
  | .DecRef =>
    match w.DecRef with
    | (w1, .ok _) => .ok w1
    | (_, .error e) => .error e
  | .collect => .ok w.collect

/-- A sequence of events applied to a handle, left to right. -/
def WeakReference.run (w : WeakReference) : List Call → Except Fault WeakReference
  | [] => .ok w
  | c :: cs =>
    match w.step c with
    | .ok w1 => w1.run cs
    | .error e => .error e

/-- A valid interleaving in the words of the specification: no `DecRef` is issued while the
running count, here `k` and unbounded, is zero. -/
def validFrom : Nat → List Call → Bool
  | _, [] => true
  | k, .IncRef :: cs => validFrom (k + 1) cs
  | k, .DecRef :: cs => decide (1 ≤ k) && validFrom (k - 1) cs
  | k, .collect :: cs => validFrom k cs

/-- The invariant of the specification on a handle: a target held strongly has a count of
at least one, a target held weakly has count zero. -/
def ModeInvariant (w : WeakReference) : Prop :=
  match w.target_ with
  | .empty => True
  | .strong _ => 1 ≤ w.reference_count_
  | .weak _ => w.reference_count_ = 0

/-! ## The snapshot codec -/

/-- Modelled from the spec: the snapshot-wide shared data table behind
`v8::SnapshotCreator::AddData` and `v8::Context::GetDataFromSnapshotOnce`, which are
declared outside `src/node_util.cc`.  Identifiers are 1-based and `0` names no entry; an
entry can be taken out once. -/
structure SnapshotData where
  slots : List (Option Obj)
  deriving DecidableEq, Repr

namespace SnapshotData

/-- Modelled from the spec: `creator->AddData(context, target)` registers the value and
returns its 1-based identifier. -/
def AddData (t : SnapshotData) (o : Obj) : SnapshotData × Nat :=
  ({ slots := t.slots ++ [some o] }, t.slots.length + 1)

/-- Modelled from the spec: `context->GetDataFromSnapshotOnce<Object>(index)` resolves a
registered identifier to its value and empties the entry; the result is an empty
`MaybeLocal` for an identifier with no value. -/
def GetDataFromSnapshotOnce (t : SnapshotData) (index : Nat) : SnapshotData × Option Obj :=
  match index with
  | 0 => (t, none)
  | k + 1 =>
    match t.slots[k]? with
    | some (some o) => ({ slots := t.slots.set k none }, some o)
    | _ => (t, none)

end SnapshotData

/-- The record `WeakReference::InternalFieldInfo`: `target` (a snapshot index) and
`reference_count`. -/
structure InternalFieldInfo where
  target : Nat
  reference_count : Nat
  deriving DecidableEq, Repr

namespace WeakReference

/-- Lines 224-246: the handle and the table after `PrepareForSerialization`.
`DCHECK_NE(target_index_, 0)` is kept as a check. -/
def PrepareForSerialization (w : WeakReference) (creator : SnapshotData) :
    Except Fault (WeakReference × SnapshotData) :=
  if w.target_.IsEmpty then
    .ok ({ w with target_index_ := 0 }, creator)
  else
    match w.target_.Get with
    | none => .error .emptyMaybeLocal
    | some target =>
      let r := creator.AddData target
      if r.2 == 0 then .error .checkFailed
      else .ok ({ w with target_index_ := r.2, target_ := Global.empty }, r.1)

/-- Lines 248-255: the record that `Serialize` emits. -/
def Serialize (w : WeakReference) : InternalFieldInfo :=
  { target := w.target_index_, reference_count := w.reference_count_ }

/-- Lines 257-272: the handle that `Deserialize` constructs and the table afterwards;
`ToLocalChecked()` aborts when the table has no value for the index. -/
def Deserialize (context : SnapshotData) (info : InternalFieldInfo) :
    Except Fault (WeakReference × SnapshotData) :=
  if info.target != 0 then
    match context.GetDataFromSnapshotOnce info.target with
    | (context1, some target) =>
      .ok (ctor (some target) info.reference_count, context1)
    | (_, none) => .error .emptyMaybeLocal
  else
    .ok (ctor none info.reference_count, context)

end WeakReference

/-! ## Lemmas on the sanitizer -/

theorem and_mask (c k w : Nat) :
    c &&& (2 ^ k * (2 ^ w - 1)) = 2 ^ k * (c / 2 ^ k % 2 ^ w) := by
  apply Nat.eq_of_testBit_eq
  intro i
  rw [Nat.testBit_and, Nat.testBit_mul_pow_two, Nat.testBit_mul_pow_two,
    Nat.testBit_two_pow_sub_one, Nat.testBit_mod_two_pow, ← Nat.shiftRight_eq_div_pow,
    Nat.testBit_shiftRight]
  by_cases hk : k ≤ i
  · have e : k + (i - k) = i := by omega
    simp [hk, e, Bool.and_comm]
  · simp [hk]

theorem and_F800 (c : Nat) : c &&& 0xF800 = 2048 * (c / 2048 % 32) := and_mask c 11 5

theorem and_FC00 (c : Nat) : c &&& 0xFC00 = 1024 * (c / 1024 % 64) := and_mask c 10 6

theorem and_0400 (c : Nat) : c &&& 0x400 = 1024 * (c / 1024 % 2) := and_mask c 10 1

/-- On 16-bit units the mask test `IsUnicodeSurrogate` is the range `0xD800`-`0xDFFF`. -/
theorem IsUnicodeSurrogate_eq (c : Nat) (hc : c < 65536) :
    IsUnicodeSurrogate c = (isLeadSurrogate c || isTrailSurrogate c) := by
  have h := and_F800 c
  rw [Bool.eq_iff_iff]
  simp only [IsUnicodeSurrogate, isLeadSurrogate, isTrailSurrogate, beq_iff_eq, Bool.or_eq_true,
    decide_eq_true_eq, h]
  omega

/-- On 16-bit units the mask test `IsUnicodeTrail` is the range `0xDC00`-`0xDFFF`. -/
theorem IsUnicodeTrail_eq (c : Nat) (hc : c < 65536) :
    IsUnicodeTrail c = isTrailSurrogate c := by
  have h := and_FC00 c
  rw [Bool.eq_iff_iff]
  simp only [IsUnicodeTrail, isTrailSurrogate, beq_iff_eq, decide_eq_true_eq, h]
  omega

/-- On a surrogate the bit test `IsUnicodeSurrogateTrail` is the range `0xDC00`-`0xDFFF`. -/
theorem IsUnicodeSurrogateTrail_eq (c : Nat) (hc : c < 65536)
    (hs : IsUnicodeSurrogate c = true) : IsUnicodeSurrogateTrail c = isTrailSurrogate c := by
  have h := and_0400 c
  have h8 := and_F800 c
  rw [Bool.eq_iff_iff]
  simp only [IsUnicodeSurrogate, beq_iff_eq, h8] at hs
  simp only [IsUnicodeSurrogateTrail, isTrailSurrogate, bne_iff_ne, ne_eq, decide_eq_true_eq, h]
  omega

theorem scanUnits_cons_scalar (c : Nat) (rest : List Nat)
    (hc : IsUnicodeSurrogate c = false) : scanUnits (c :: rest) = c :: scanUnits rest := by
  cases rest <;> simp [scanUnits, hc]

theorem scanUnits_cons_trail (c : Nat) (rest : List Nat)
    (hc : IsUnicodeSurrogate c = true) (ht : IsUnicodeSurrogateTrail c = true) :
    scanUnits (c :: rest) = kUnicodeReplacementCharacter :: scanUnits rest := by
  cases rest <;> simp [scanUnits, hc, ht]

theorem scanUnits_lead_last (c : Nat) (hc : IsUnicodeSurrogate c = true) :
    scanUnits [c] = [kUnicodeReplacementCharacter] := by
  simp [scanUnits, hc]

theorem scanUnits_lead_trail (c d : Nat) (rest : List Nat)
    (hc : IsUnicodeSurrogate c = true) (ht : IsUnicodeSurrogateTrail c = false)
    (hd : IsUnicodeTrail d = true) :
    scanUnits (c :: d :: rest) = c :: d :: scanUnits rest := by
  simp [scanUnits, hc, ht, hd]

theorem scanUnits_lead_other (c d : Nat) (rest : List Nat)
    (hc : IsUnicodeSurrogate c = true) (hd : IsUnicodeTrail d = false) :
    scanUnits (c :: d :: rest) = kUnicodeReplacementCharacter :: scanUnits (d :: rest) := by
  simp [scanUnits, hc, hd]

theorem scanUnits_length : ∀ (n : Nat) (l : List Nat), l.length = n →
    (scanUnits l).length = l.length := by
  intro n
  induction n using Nat.strong_induction_on with
  | _ n ih =>
    intro l hl
    match l, hl with
    | [], _ => simp [scanUnits]
    | [c], _ => simp only [scanUnits]; split <;> simp
    | c :: d :: rest, hl =>
      have h1 := ih (d :: rest).length (by simp at hl ⊢; omega) (d :: rest) rfl
      have h2 := ih rest.length (by simp at hl ⊢; omega) rest rfl
      simp only [scanUnits]
      split
      · simp [h1]
      · split
        · simp [h1]
        · split
          · simp [h2]
          · simp [h1]

theorem take_set_self (l : List Nat) (i a : Nat) : (l.set i a).take i = l.take i := by
  rw [List.set_take, List.set_eq_of_length_le]
  simp

/-- The in-place loop entered at `i` leaves the units before `i` alone and scans the rest. -/
theorem usvLoop_eq : ∀ (n : Nat) (value : List Nat) (i : Nat), value.length - i = n →
    i ≤ value.length →
    usvLoop value i = .ok (value.take i ++ scanUnits (value.drop i)) := by
  intro n
  induction n using Nat.strong_induction_on with
  | _ n ih =>
    intro value i hn hi
    rw [usvLoop]
    by_cases hlt : i < value.length
    · have hread : readAt value i = .ok value[i] := by simp [readAt, hlt]
      have hdrop : value.drop i = value[i] :: value.drop (i + 1) := List.drop_eq_getElem_cons hlt
      have htake : value.take (i + 1) = value.take i ++ [value[i]] := by
        rw [List.take_succ]; simp [hlt]
      have hwrite : writeAt value i kUnicodeReplacementCharacter
          = .ok (value.set i kUnicodeReplacementCharacter) := by simp [writeAt, hlt]
      have hset : usvLoop (value.set i kUnicodeReplacementCharacter) (i + 1)
          = .ok (value.take i ++ kUnicodeReplacementCharacter :: scanUnits (value.drop (i + 1))) := by
        rw [ih (value.length - (i + 1)) (by omega) _ (i + 1) (by simp) (by simp; omega)]
        congr 1
        rw [List.take_succ, take_set_self, List.drop_set_of_lt _ _ (Nat.lt_succ_self i)]
        simp [hlt]
      have hnext : usvLoop value (i + 1)
          = .ok (value.take i ++ value[i] :: scanUnits (value.drop (i + 1))) := by
        rw [ih (value.length - (i + 1)) (by omega) _ (i + 1) rfl (by omega), htake]
        simp only [List.append_assoc, List.singleton_append]
      simp only [hlt, if_true, hread, hdrop]
      by_cases hs : IsUnicodeSurrogate value[i] = true
      · simp only [hs, Bool.not_true, Bool.false_eq_true, if_false]
        by_cases ht : IsUnicodeSurrogateTrail value[i] = true
        · simp only [ht, Bool.true_or, if_true]
          split
          · next e he => rw [hwrite] at he; cases he
          · next v1 he =>
            rw [hwrite] at he; cases he
            rw [hset, scanUnits_cons_trail _ _ hs ht]
        · simp only [ht, Bool.false_or]
          by_cases hlast : i = value.length - 1
          · have hb : (i == value.length - 1) = true := by rw [beq_iff_eq]; exact hlast
            have hnil : value.drop (i + 1) = [] := List.drop_eq_nil_of_le (by omega)
            simp only [hb, if_true]
            split
            · next e he => rw [hwrite] at he; cases he
            · next v1 he =>
              rw [hwrite] at he; cases he
              rw [hset, hnil, scanUnits_lead_last _ hs]
              simp [scanUnits]
          · have hlt1 : i + 1 < value.length := by omega
            have hread1 : readAt value (i + 1) = .ok value[i + 1] := by simp [readAt, hlt1]
            have hdrop1 : value.drop (i + 1) = value[i + 1] :: value.drop (i + 1 + 1) :=
              List.drop_eq_getElem_cons hlt1
            have hb : (i == value.length - 1) = false := by simp [hlast]
            simp only [hb, Bool.false_eq_true, if_false, hread1]
            by_cases hd : IsUnicodeTrail value[i + 1] = true
            · simp only [hd, if_true]
              rw [ih (value.length - (i + 1 + 1)) (by omega) _ (i + 1 + 1) rfl (by omega)]
              rw [hdrop1, scanUnits_lead_trail _ _ _ hs (by simpa using ht) hd]
              have htake1 : value.take (i + 1 + 1) = value.take i ++ [value[i], value[i + 1]] := by
                rw [List.take_succ, htake, List.getElem?_eq_getElem hlt1]
                simp only [Option.toList, List.append_assoc, List.singleton_append]
              rw [htake1]
              simp only [List.append_assoc, List.cons_append, List.nil_append]
            · simp only [hd, Bool.false_eq_true, if_false]
              split
              · next e he => rw [hwrite] at he; cases he
              · next v1 he =>
                rw [hwrite] at he; cases he
                rw [hset, hdrop1, scanUnits_lead_other _ _ _ hs (by simpa using hd)]
      · have hs1 : IsUnicodeSurrogate value[i] = false := by simpa using hs
        simp only [hs1, Bool.not_false, if_true]
        rw [hnext, scanUnits_cons_scalar _ _ hs1]
    · have hnil : value.drop i = [] := List.drop_eq_nil_of_le (by omega)
      have htk : value.take i = value := List.take_of_length_le (by omega)
      simp [hlt, hnil, htk, scanUnits]

/-- Entered at or beyond the end, the loop does nothing. -/
theorem usvLoop_of_length_le (value : List Nat) (i : Nat) (h : value.length ≤ i) :
    usvLoop value i = .ok value := by
  rw [usvLoop]
  simp [Nat.not_lt.mpr h]

/-- The three kinds of 16-bit unit, with the answers of the source's tests and of the
specification's ranges on each. -/
theorem unit_kinds (c : Nat) (hc : c < 65536) :
    (IsUnicodeSurrogate c = false ∧ isLeadSurrogate c = false ∧ isTrailSurrogate c = false) ∨
    (IsUnicodeSurrogate c = true ∧ IsUnicodeSurrogateTrail c = false ∧
      isLeadSurrogate c = true ∧ isTrailSurrogate c = false) ∨
    (IsUnicodeSurrogate c = true ∧ IsUnicodeSurrogateTrail c = true ∧
      isLeadSurrogate c = false ∧ isTrailSurrogate c = true) := by
  have h1 := IsUnicodeSurrogate_eq c hc
  have hdisj : isLeadSurrogate c = true → isTrailSurrogate c = true → False := by
    simp only [isLeadSurrogate, isTrailSurrogate, decide_eq_true_eq]; omega
  cases hs : IsUnicodeSurrogate c
  · rw [hs] at h1
    have h2 := h1.symm
    simp only [Bool.or_eq_false_iff] at h2
    exact Or.inl ⟨rfl, h2.1, h2.2⟩
  · have h3 := IsUnicodeSurrogateTrail_eq c hc hs
    rw [hs] at h1
    cases ht : isTrailSurrogate c
    · rw [ht] at h3 h1
      simp only [Bool.or_false] at h1
      exact Or.inr (Or.inl ⟨rfl, h3, h1.symm, rfl⟩)
    · rw [ht] at h3
      cases hl : isLeadSurrogate c
      · exact Or.inr (Or.inr ⟨rfl, h3, rfl, rfl⟩)
      · exact absurd ht (by intro h; exact hdisj hl h)

/-- On 16-bit units the scan with the source's tests is the scan of the specification. -/
theorem scanUnits_eq_referenceScan : ∀ (n : Nat) (l : List Nat), l.length = n →
    IsChar16 l → scanUnits l = referenceScan l := by
  intro n
  induction n using Nat.strong_induction_on with
  | _ n ih =>
    intro l hl h16
    match l, hl, h16 with
    | [], _, _ => simp [scanUnits, referenceScan]
    | [c], _, h16 =>
      have hc : c < 65536 := h16 c (by simp)
      rcases unit_kinds c hc with ⟨a, b, d⟩ | ⟨a, _, b, d⟩ | ⟨a, _, b, d⟩ <;>
        simp [scanUnits, referenceScan, a, b, d, kUnicodeReplacementCharacter]
    | c :: d :: rest, hl, h16 =>
      have hc : c < 65536 := h16 c (by simp)
      have hd : d < 65536 := h16 d (by simp)
      have h1 := ih (d :: rest).length (by simp at hl ⊢; omega) (d :: rest) rfl
        (fun x hx => h16 x (List.mem_cons_of_mem _ hx))
      have h2 := ih rest.length (by simp at hl ⊢; omega) rest rfl
        (fun x hx => h16 x (List.mem_cons_of_mem _ (List.mem_cons_of_mem _ hx)))
      have hdt := IsUnicodeTrail_eq d hd
      rcases unit_kinds c hc with ⟨a, b, e⟩ | ⟨a, a1, b, e⟩ | ⟨a, a1, b, e⟩
      · simp only [scanUnits, referenceScan, a, b, e, h1]
        simp
      · cases ht : isTrailSurrogate d <;>
          simp [scanUnits, referenceScan, a, a1, b, e, h1, h2, hdt, ht,
            kUnicodeReplacementCharacter]
      · simp [scanUnits, referenceScan, a, a1, b, e, h1, kUnicodeReplacementCharacter]

theorem IsChar16_drop (s : List Nat) (k : Nat) (h : IsChar16 s) : IsChar16 (s.drop k) :=
  fun c hc => h c (List.mem_of_mem_drop hc)

/-- On 16-bit units and a start that is not negative, `ToUSVString` returns the sanitized
sequence of the specification. -/
theorem ToUSVString_eq_sanitizeSpec (s : List Nat) (start : Nat) (h16 : IsChar16 s) :
    ToUSVString s (start : Int) = .ok (sanitizeSpec s start) := by
  have h0 : (0 : Int) ≤ (start : Int) := Int.ofNat_nonneg start
  simp only [ToUSVString, h0, if_true, Int.toNat_ofNat, sanitizeSpec]
  by_cases hs : start ≤ s.length
  · rw [usvLoop_eq _ s start rfl hs,
      scanUnits_eq_referenceScan _ (s.drop start) rfl (IsChar16_drop s start h16)]
  · have hle : s.length ≤ start := by omega
    rw [usvLoop_of_length_le s start hle, List.take_of_length_le hle,
      List.drop_eq_nil_of_le hle]
    simp [referenceScan]

/-- With a start that is not negative, `ToUSVString` returns a sequence of the same
length: the units before the start followed by the scan of the rest. -/
theorem ToUSVString_eq_scan (s : List Nat) (start : Nat) :
    ToUSVString s (start : Int) = .ok (s.take start ++ scanUnits (s.drop start)) := by
  have h0 : (0 : Int) ≤ (start : Int) := Int.ofNat_nonneg start
  simp only [ToUSVString, h0, if_true, Int.toNat_ofNat]
  by_cases hs : start ≤ s.length
  · rw [usvLoop_eq _ s start rfl hs]
  · have hle : s.length ≤ start := by omega
    rw [usvLoop_of_length_le s start hle, List.take_of_length_le hle,
      List.drop_eq_nil_of_le hle]
    simp [scanUnits]

theorem take_scan_length (s : List Nat) (start : Nat) :
    (s.take start ++ scanUnits (s.drop start)).length = s.length := by
  rw [List.length_append, scanUnits_length _ _ rfl, List.length_take, List.length_drop]
  omega

theorem replacement_not_surrogate : IsUnicodeSurrogate kUnicodeReplacementCharacter = false := by
  decide

/-- A unit that passes `IsUnicodeTrail` is a surrogate with the trail bit set. -/
theorem IsUnicodeTrail_surrogate (d : Nat) (h : IsUnicodeTrail d = true) :
    IsUnicodeSurrogate d = true ∧ IsUnicodeSurrogateTrail d = true := by
  have h1 := and_FC00 d
  have h2 := and_F800 d
  have h3 := and_0400 d
  simp only [IsUnicodeTrail, beq_iff_eq, h1] at h
  simp only [IsUnicodeSurrogate, IsUnicodeSurrogateTrail, beq_iff_eq, bne_iff_ne, ne_eq, h2, h3]
  omega

/-- Scanning a scanned sequence changes nothing. -/
theorem scanUnits_idem : ∀ (n : Nat) (l : List Nat), l.length = n →
    scanUnits (scanUnits l) = scanUnits l := by
  intro n
  induction n using Nat.strong_induction_on with
  | _ n ih =>
    intro l hl
    match l, hl with
    | [], _ => simp [scanUnits]
    | [c], _ =>
      cases hs : IsUnicodeSurrogate c
      · simp [scanUnits, hs]
      · simp [scanUnits, hs, replacement_not_surrogate]
    | c :: d :: rest, hl =>
      have h1 := ih (d :: rest).length (by simp at hl ⊢; omega) (d :: rest) rfl
      have h2 := ih rest.length (by simp at hl ⊢; omega) rest rfl
      have hrep : scanUnits (kUnicodeReplacementCharacter :: scanUnits (d :: rest))
          = kUnicodeReplacementCharacter :: scanUnits (d :: rest) := by
        rw [scanUnits_cons_scalar _ _ replacement_not_surrogate, h1]
      cases hs : IsUnicodeSurrogate c
      · rw [scanUnits_cons_scalar _ _ hs, scanUnits_cons_scalar _ _ hs, h1]
      · cases ht : IsUnicodeSurrogateTrail c
        · cases hd : IsUnicodeTrail d
          · rw [scanUnits_lead_other _ _ _ hs hd, hrep]
          · rw [scanUnits_lead_trail _ _ _ hs ht hd, scanUnits_lead_trail _ _ _ hs ht hd, h2]
        · rw [scanUnits_cons_trail _ _ hs ht, hrep]

theorem lead_not_trail (c : Nat) (hl : isLeadSurrogate c = true) :
    isTrailSurrogate c = false := by
  simp only [isLeadSurrogate, isTrailSurrogate, decide_eq_true_eq, decide_eq_false_iff_not] at *
  omega

theorem trail_not_lead (c : Nat) (ht : isTrailSurrogate c = true) :
    isLeadSurrogate c = false := by
  simp only [isLeadSurrogate, isTrailSurrogate, decide_eq_true_eq, decide_eq_false_iff_not] at *
  omega

/-- The scan of the specification yields non-surrogates and lead-trail pairs only. -/
theorem referenceScan_paired : ∀ (n : Nat) (l : List Nat), l.length = n →
    Paired (referenceScan l) := by
  intro n
  induction n using Nat.strong_induction_on with
  | _ n ih =>
    intro l hl
    have hrep : ∀ t, Paired t → Paired (0xFFFD :: t) :=
      fun t ht => Paired.scalar _ _ (by decide) (by decide) ht
    match l, hl with
    | [], _ => simp only [referenceScan]; exact Paired.nil
    | [c], _ =>
      simp only [referenceScan]
      split
      · exact hrep _ Paired.nil
      · next h =>
        simp only [Bool.or_eq_true, not_or, Bool.not_eq_true] at h
        exact Paired.scalar _ _ h.1 h.2 Paired.nil
    | c :: d :: rest, hl =>
      have h1 := ih (d :: rest).length (by simp at hl ⊢; omega) (d :: rest) rfl
      have h2 := ih rest.length (by simp at hl ⊢; omega) rest rfl
      simp only [referenceScan]
      split
      · next hc =>
        split
        · next hd => exact Paired.pair _ _ _ hc hd h2
        · exact hrep _ h1
      · next hc =>
        split
        · exact hrep _ h1
        · next ht =>
          exact Paired.scalar _ _ (by simpa using hc) (by simpa using ht) h1

/-- A sequence of non-surrogates and lead-trail pairs has no unpaired surrogate. -/
theorem Paired.isScalarValueString {l : List Nat} (h : Paired l) : IsScalarValueString l := by
  induction h with
  | nil => constructor <;> intro i c hi <;> simp at hi
  | scalar c l hl ht _ ih =>
    obtain ⟨ih1, ih2⟩ := ih
    constructor
    · intro i x hi hx
      cases i with
      | zero =>
        simp only [List.getElem?_cons_zero, Option.some.injEq] at hi
        subst hi; rw [hl] at hx; cases hx
      | succ j =>
        simp only [List.getElem?_cons_succ] at hi ⊢
        exact ih1 j x hi hx
    · intro i x hi hx
      cases i with
      | zero =>
        simp only [List.getElem?_cons_zero, Option.some.injEq] at hi
        subst hi; rw [ht] at hx; cases hx
      | succ j =>
        simp only [List.getElem?_cons_succ] at hi
        obtain ⟨k, d, hk, hd, hdl⟩ := ih2 j x hi hx
        exact ⟨k + 1, d, by omega, by simpa using hd, hdl⟩
  | pair c d l hl ht _ ih =>
    obtain ⟨ih1, ih2⟩ := ih
    constructor
    · intro i x hi hx
      match i, hi with
      | 0, hi => exact ⟨d, by simp, ht⟩
      | 1, hi =>
        simp only [List.getElem?_cons_succ, List.getElem?_cons_zero, Option.some.injEq] at hi
        subst hi; rw [trail_not_lead _ ht] at hx; cases hx
      | j + 2, hi =>
        simp only [List.getElem?_cons_succ] at hi ⊢
        exact ih1 j x hi hx
    · intro i x hi hx
      match i, hi with
      | 0, hi =>
        simp only [List.getElem?_cons_zero, Option.some.injEq] at hi
        subst hi; rw [lead_not_trail _ hl] at hx; cases hx
      | 1, hi => exact ⟨0, c, rfl, by simp, hl⟩
      | j + 2, hi =>
        simp only [List.getElem?_cons_succ] at hi
        obtain ⟨k, e, hk, he, hel⟩ := ih2 j x hi hx
        exact ⟨k + 2, e, by omega, by simpa using he, hel⟩

/-- The scan of the specification keeps every non-surrogate unit in its place. -/
theorem referenceScan_keeps_scalar : ∀ (n : Nat) (l : List Nat), l.length = n →
    ∀ (i c : Nat), l[i]? = some c → isLeadSurrogate c = false → isTrailSurrogate c = false →
    (referenceScan l)[i]? = some c := by
  intro n
  induction n using Nat.strong_induction_on with
  | _ n ih =>
    intro l hl i c hi hcl hct
    match l, hl, hi with
    | [], _, hi => simp at hi
    | [c0], _, hi =>
      match i, hi with
      | 0, hi =>
        simp only [List.getElem?_cons_zero, Option.some.injEq] at hi
        subst hi
        simp [referenceScan, hcl, hct]
      | j + 1, hi => simp at hi
    | c0 :: d0 :: rest, hl, hi =>
      have h1 := ih (d0 :: rest).length (by simp at hl ⊢; omega) (d0 :: rest) rfl
      have h2 := ih rest.length (by simp at hl ⊢; omega) rest rfl
      simp only [referenceScan]
      match i, hi with
      | 0, hi =>
        simp only [List.getElem?_cons_zero, Option.some.injEq] at hi
        subst hi
        simp [hcl, hct]
      | 1, hi =>
        simp only [List.getElem?_cons_succ, List.getElem?_cons_zero, Option.some.injEq] at hi
        subst hi
        have h10 := h1 0 d0 (by simp) hcl hct
        split
        · simp [hct, h10]
        · split <;> simpa using h10
      | j + 2, hi =>
        have hi1 : (d0 :: rest)[j + 1]? = some c := by simpa using hi
        have hi2 : rest[j]? = some c := by simpa using hi
        have h1j := h1 (j + 1) c hi1 hcl hct
        have h2j := h2 j c hi2 hcl hct
        split
        · split
          · simpa using h2j
          · simpa using h1j
        · split <;> simpa using h1j

/-- The scan of the specification keeps both units of every lead-trail pair in place. -/
theorem referenceScan_keeps_pair : ∀ (n : Nat) (l : List Nat), l.length = n →
    ∀ (i c d : Nat), l[i]? = some c → l[i + 1]? = some d → isLeadSurrogate c = true →
    isTrailSurrogate d = true →
    (referenceScan l)[i]? = some c ∧ (referenceScan l)[i + 1]? = some d := by
  intro n
  induction n using Nat.strong_induction_on with
  | _ n ih =>
    intro l hl i c d hi hi1 hc hd
    match l, hl, hi, hi1 with
    | [], _, hi, _ => simp at hi
    | [c0], _, _, hi1 => simp at hi1
    | c0 :: d0 :: rest, hl, hi, hi1 =>
      have h1 := ih (d0 :: rest).length (by simp at hl ⊢; omega) (d0 :: rest) rfl
      have h2 := ih rest.length (by simp at hl ⊢; omega) rest rfl
      simp only [referenceScan]
      match i, hi, hi1 with
      | 0, hi, hi1 =>
        simp only [List.getElem?_cons_zero, Option.some.injEq, List.getElem?_cons_succ,
          Nat.zero_add] at hi hi1
        subst hi; subst hi1
        simp [hc, hd]
      | j + 1, hi, hi1 =>
        have hj : (d0 :: rest)[j]? = some c := by simpa using hi
        have hj1 : (d0 :: rest)[j + 1]? = some d := by simpa using hi1
        have h1j := h1 j c d hj hj1 hc hd
        split
        · next hc0 =>
          split
          · next hd0 =>
            match j, hj, hj1 with
            | 0, hj, _ =>
              simp only [List.getElem?_cons_zero, Option.some.injEq] at hj
              subst hj
              rw [trail_not_lead _ hd0] at hc; cases hc
            | k + 1, hj, hj1 =>
              have hk : rest[k]? = some c := by simpa using hj
              have hk1 : rest[k + 1]? = some d := by simpa using hj1
              simpa using h2 k c d hk hk1 hc hd
          · simpa using h1j
        · split <;> simpa using h1j

theorem sanitizeSpec_get_lt (s : List Nat) (start i : Nat) (hi : i < start)
    (hs : start ≤ s.length) : (sanitizeSpec s start)[i]? = s[i]? := by
  unfold sanitizeSpec
  rw [List.getElem?_append_left (by rw [List.length_take]; omega), List.getElem?_take_of_lt hi]

theorem sanitizeSpec_get_ge (s : List Nat) (start i : Nat) (hi : start ≤ i)
    (hs : start ≤ s.length) :
    (sanitizeSpec s start)[i]? = (referenceScan (s.drop start))[i - start]? := by
  unfold sanitizeSpec
  rw [List.getElem?_append_right (by rw [List.length_take]; omega), List.length_take,
    Nat.min_eq_left hs]

theorem drop_get (s : List Nat) (start i : Nat) (hi : start ≤ i) :
    (s.drop start)[i - start]? = s[i]? := by
  rw [List.getElem?_drop]
  congr 1
  omega

/-! ## The claims on the sanitizer -/

/-- C5: for every sequence of 16-bit code units, the sanitizer at start 0 returns a
scalar-value string: every lead surrogate of the output is immediately followed by a
trail surrogate and every trail surrogate is immediately preceded by a lead surrogate. -/
theorem ToUSVString_scalar_value_string (s : List Nat) (h16 : IsChar16 s) :
    ∃ out, ToUSVString s 0 = .ok out ∧ IsScalarValueString out := by
  refine ⟨sanitizeSpec s 0, ToUSVString_eq_sanitizeSpec s 0 h16, ?_⟩
  have h := (referenceScan_paired _ s rfl).isScalarValueString
  simpa [sanitizeSpec] using h

theorem ToUSVString_scalar_value_string_witness :
    IsChar16 [0xDE00, 0xD83D, 0xD83D, 0xDE00, 0x41, 0xD83D] ∧
    ∃ out, ToUSVString [0xDE00, 0xD83D, 0xD83D, 0xDE00, 0x41, 0xD83D] 0 = .ok out ∧
      IsScalarValueString out :=
  ⟨by simp [IsChar16], ToUSVString_scalar_value_string _ (by simp [IsChar16])⟩

/-- C6, as the code has it: for 16-bit units and a start within the sequence, every
non-surrogate unit keeps its value and its index, and so do both units of every lead-trail
pair, unless the scan starts on the trail of that pair. -/
theorem ToUSVString_keeps_valid_content (s : List Nat) (start : Nat) (h16 : IsChar16 s)
    (hs : start ≤ s.length) :
    ∃ out, ToUSVString s (start : Int) = .ok out ∧
      (∀ (i c : Nat), s[i]? = some c → isLeadSurrogate c = false →
        isTrailSurrogate c = false → out[i]? = some c) ∧
      (∀ (i c d : Nat), s[i]? = some c → s[i + 1]? = some d → isLeadSurrogate c = true →
        isTrailSurrogate d = true → i + 1 ≠ start →
        out[i]? = some c ∧ out[i + 1]? = some d) := by
  refine ⟨sanitizeSpec s start, ToUSVString_eq_sanitizeSpec s start h16, ?_, ?_⟩
  · intro i c hi hl ht
    by_cases hlt : i < start
    · rw [sanitizeSpec_get_lt s start i hlt hs]; exact hi
    · have hge : start ≤ i := by omega
      rw [sanitizeSpec_get_ge s start i hge hs]
      exact referenceScan_keeps_scalar _ _ rfl _ c (by rw [drop_get s start i hge]; exact hi) hl ht
  · intro i c d hi hi1 hl ht hne
    by_cases hlt : i + 1 < start
    · rw [sanitizeSpec_get_lt s start i (by omega) hs, sanitizeSpec_get_lt s start (i + 1) hlt hs]
      exact ⟨hi, hi1⟩
    · have hge : start ≤ i := by omega
      rw [sanitizeSpec_get_ge s start i hge hs, sanitizeSpec_get_ge s start (i + 1) (by omega) hs]
      have e : i + 1 - start = (i - start) + 1 := by omega
      rw [e]
      refine referenceScan_keeps_pair _ _ rfl _ c d (by rw [drop_get s start i hge]; exact hi) ?_ hl ht
      rw [← e, drop_get s start (i + 1) (by omega)]
      exact hi1

theorem ToUSVString_keeps_valid_content_witness :
    IsChar16 [0x41, 0xD83D, 0xDE00, 0xDE00] ∧ 1 ≤ [0x41, 0xD83D, 0xDE00, 0xDE00].length ∧
    ∃ out, ToUSVString [0x41, 0xD83D, 0xDE00, 0xDE00] ((1 : Nat) : Int) = .ok out ∧
      (∀ (i c : Nat), [0x41, 0xD83D, 0xDE00, 0xDE00][i]? = some c →
        isLeadSurrogate c = false → isTrailSurrogate c = false → out[i]? = some c) ∧
      (∀ (i c d : Nat), [0x41, 0xD83D, 0xDE00, 0xDE00][i]? = some c →
        [0x41, 0xD83D, 0xDE00, 0xDE00][i + 1]? = some d → isLeadSurrogate c = true →
        isTrailSurrogate d = true → i + 1 ≠ 1 →
        out[i]? = some c ∧ out[i + 1]? = some d) :=
  ⟨by decide, by decide,
    ToUSVString_keeps_valid_content _ 1 (by decide) (by decide)⟩

/-- C6 as stated fails: scanned from index 1, the valid pair `0xD83D 0xDE00` at indices
0 and 1 loses its trail, which is replaced by `0xFFFD`. -/
theorem ToUSVString_pair_across_start :
    isLeadSurrogate 0xD83D = true ∧ isTrailSurrogate 0xDE00 = true ∧
    (1 : Int) ≤ ([0xD83D, 0xDE00] : List Nat).length ∧
    ToUSVString [0xD83D, 0xDE00] 1 = .ok [0xD83D, 0xFFFD] := by
  refine ⟨by decide, by decide, by decide, ?_⟩
  simp +decide [ToUSVString, usvLoop, readAt, writeAt, IsUnicodeSurrogate,
    IsUnicodeSurrogateTrail, IsUnicodeTrail, kUnicodeReplacementCharacter]

/-- C7: the sanitizer at start 0 is idempotent: it returns a sequence on every input,
and run on that sequence it returns it again. -/
theorem ToUSVString_idempotent (s : List Nat) :
    ∃ out, ToUSVString s 0 = .ok out ∧ ToUSVString out 0 = .ok out := by
  refine ⟨scanUnits s, by simpa using ToUSVString_eq_scan s 0, ?_⟩
  have h := ToUSVString_eq_scan (scanUnits s) 0
  rw [List.take_zero, List.drop_zero, List.nil_append, scanUnits_idem _ s rfl] at h
  exact h

/-- C8: for every sequence, the empty one included, and every start from 0 to its
length, the scan ends without a fault, in particular without an index outside the
buffer, and the sequence returned has the length of the input. -/
theorem ToUSVString_total (s : List Nat) (start : Int) (h0 : 0 ≤ start)
    (h1 : start ≤ (s.length : Int)) :
    ∃ out, ToUSVString s start = .ok out ∧ out.length = s.length := by
  obtain ⟨k, rfl⟩ := Int.eq_ofNat_of_zero_le h0
  exact ⟨_, ToUSVString_eq_scan s k, take_scan_length s k⟩

theorem ToUSVString_total_witness :
    (0 : Int) ≤ 1 ∧ (1 : Int) ≤ (([0xD83D, 0xD83D] : List Nat).length : Int) ∧
    ∃ out, ToUSVString [0xD83D, 0xD83D] 1 = .ok out ∧
      out.length = ([0xD83D, 0xD83D] : List Nat).length :=
  ⟨by decide, by decide, ToUSVString_total [0xD83D, 0xD83D] 1 (by decide) (by decide)⟩

/-- C9, as the code has it: the only start the sanitizer rejects is a negative one.  It
fails fatally exactly when `start < 0`; for every other start it returns a sequence of the
length of the input, and for a start beyond the length that sequence is the input. -/
theorem ToUSVString_fatal_iff (s : List Nat) (start : Int) :
    ((∃ e, ToUSVString s start = .error e) ↔ start < 0) ∧
    (0 ≤ start → ∃ out, ToUSVString s start = .ok out ∧ out.length = s.length) ∧
    ((s.length : Int) < start → ToUSVString s start = .ok s) := by
  have hok : 0 ≤ start → ∃ out, ToUSVString s start = .ok out ∧ out.length = s.length := by
    intro h0
    obtain ⟨k, rfl⟩ := Int.eq_ofNat_of_zero_le h0
    exact ⟨_, ToUSVString_eq_scan s k, take_scan_length s k⟩
  refine ⟨⟨?_, ?_⟩, hok, ?_⟩
  · rintro ⟨e, he⟩
    by_contra hn
    obtain ⟨out, ho, _⟩ := hok (by omega)
    rw [ho] at he
    cases he
  · intro hneg
    exact ⟨.checkFailed, by simp [ToUSVString, Int.not_le.mpr hneg]⟩
  · intro hgt
    have h0 : 0 ≤ start := by omega
    simp only [ToUSVString, h0, if_true]
    exact usvLoop_of_length_le s _ (by omega)

theorem ToUSVString_fatal_iff_witness :
    ((∃ e, ToUSVString [0xD83D] (-1) = .error e) ↔ (-1 : Int) < 0) ∧
    (∃ out, ToUSVString [0xD83D] 0 = .ok out ∧ out.length = ([0xD83D] : List Nat).length) ∧
    ToUSVString [0xD83D] 5 = .ok [0xD83D] :=
  ⟨(ToUSVString_fatal_iff [0xD83D] (-1)).1, (ToUSVString_fatal_iff [0xD83D] 0).2.1 (by decide),
    (ToUSVString_fatal_iff [0xD83D] 5).2.2 (by decide)⟩

/-- C9 as stated fails: a start beyond the length is not fatal; the loop is not entered
and the input comes back, unpaired surrogate included. -/
theorem ToUSVString_start_beyond_length :
    (([0xD83D] : List Nat).length : Int) < 2 ∧ ToUSVString [0xD83D] 2 = .ok [0xD83D] := by
  refine ⟨by decide, ?_⟩
  simp +decide [ToUSVString, usvLoop]

/-- C10: for 16-bit units and a start that is not negative, so for every start from 0 to
the length, the in-place loop of
`ToUSVString` with its mask tests returns exactly the sequence of the reference scan of
rules 1-4 behind the units before the start; with the four cases of the specification at
start 0. -/
theorem ToUSVString_refines_reference (s : List Nat) (start : Nat) (h16 : IsChar16 s) :
    ToUSVString s (start : Int) = .ok (s.take start ++ referenceScan (s.drop start)) ∧
    ToUSVString [0x0041, 0xD83D, 0xDE00] 0 = .ok [0x0041, 0xD83D, 0xDE00] ∧
    ToUSVString [0x0041, 0xD83D] 0 = .ok [0x0041, 0xFFFD] ∧
    ToUSVString [0xDE00, 0x0041] 0 = .ok [0xFFFD, 0x0041] ∧
    ToUSVString [0xD83D, 0x0041] 0 = .ok [0xFFFD, 0x0041] := by
  refine ⟨ToUSVString_eq_sanitizeSpec s start h16, ?_, ?_, ?_, ?_⟩ <;>
    simp +decide [ToUSVString, usvLoop, readAt, writeAt, IsUnicodeSurrogate,
      IsUnicodeSurrogateTrail, IsUnicodeTrail, kUnicodeReplacementCharacter]

theorem ToUSVString_refines_reference_witness :
    IsChar16 [0xD83D, 0xDE00, 0xD83D, 0xDE00, 0xDE00] ∧
    ToUSVString [0xD83D, 0xDE00, 0xD83D, 0xDE00, 0xDE00] ((1 : Nat) : Int)
      = .ok [0xD83D, 0xFFFD, 0xD83D, 0xDE00, 0xFFFD] :=
  ⟨by simp [IsChar16],
    (ToUSVString_refines_reference [0xD83D, 0xDE00, 0xD83D, 0xDE00, 0xDE00] 1
      (by simp [IsChar16])).1⟩

/-! ## Lemmas on the weak reference handle -/

theorem IncRef_count (w : WeakReference) :
    w.IncRef.1.reference_count_ = (w.reference_count_ + 1) % 2 ^ 64 := by
  unfold WeakReference.IncRef
  simp only
  split
  · rfl
  · split <;> rfl

theorem IncRef_invariant (w : WeakReference) (hb : w.reference_count_ + 1 < 2 ^ 64)
    (hinv : ModeInvariant w) : ModeInvariant w.IncRef.1 := by
  have hm : (w.reference_count_ + 1) % 2 ^ 64 = w.reference_count_ + 1 := Nat.mod_eq_of_lt hb
  obtain ⟨t, c, k⟩ := w
  simp only at hb hm
  cases t with
  | empty => simp [WeakReference.IncRef, ModeInvariant, Global.IsEmpty]
  | strong o =>
    simp only [WeakReference.IncRef, Global.IsEmpty, hm, Global.ClearWeak]
    by_cases h : c + 1 = 1 <;> simp [h, ModeInvariant]
  | weak o =>
    have hc : c = 0 := hinv
    subst hc
    simp [WeakReference.IncRef, Global.IsEmpty, Global.ClearWeak, ModeInvariant]

theorem DecRef_ok (w : WeakReference) (h1 : 1 ≤ w.reference_count_) :
    ∃ r, w.DecRef.2 = .ok r ∧ w.DecRef.1.reference_count_ = w.reference_count_ - 1 := by
  unfold WeakReference.DecRef
  simp only [h1, if_true]
  split
  · exact ⟨_, rfl, rfl⟩
  · split <;> exact ⟨_, rfl, rfl⟩

theorem DecRef_invariant (w : WeakReference) (h1 : 1 ≤ w.reference_count_)
    (hinv : ModeInvariant w) : ModeInvariant w.DecRef.1 := by
  obtain ⟨t, c, k⟩ := w
  simp only at h1
  cases t with
  | empty => simp [WeakReference.DecRef, ModeInvariant, Global.IsEmpty, h1]
  | strong o =>
    simp only [WeakReference.DecRef, Global.IsEmpty, h1, Global.SetWeak, if_true]
    by_cases h : c - 1 = 0
    · simp [h, ModeInvariant]
    · simp [h, ModeInvariant]; omega
  | weak o =>
    have hc : c = 0 := hinv
    omega

theorem collect_invariant (w : WeakReference) (hinv : ModeInvariant w) :
    ModeInvariant w.collect := by
  obtain ⟨t, c, k⟩ := w
  cases t <;> simp [WeakReference.collect, ModeInvariant, Global.collect] at hinv ⊢
  exact hinv

/-- A valid sequence of events that keeps the count below `2 ^ 64` runs to the end,
keeps the invariant and leaves the count the events add up to. -/
theorem run_valid : ∀ (cs : List Call) (w : WeakReference), ModeInvariant w →
    validFrom w.reference_count_ cs = true →
    w.reference_count_ + cs.count Call.IncRef < 2 ^ 64 →
    ∃ w1, w.run cs = .ok w1 ∧ ModeInvariant w1 ∧
      w1.reference_count_ + cs.count Call.DecRef
        = w.reference_count_ + cs.count Call.IncRef := by
  intro cs
  induction cs with
  | nil => intro w hinv _ _; exact ⟨w, rfl, hinv, by simp⟩
  | cons c cs ih =>
    intro w hinv hv hb
    cases c with
    | IncRef =>
      have e1 : (Call.IncRef :: cs).count Call.IncRef = cs.count Call.IncRef + 1 := by
        simp [List.count_cons]
      have e2 : (Call.IncRef :: cs).count Call.DecRef = cs.count Call.DecRef := by
        simp [List.count_cons]
      rw [e1] at hb
      simp only [validFrom] at hv
      have hb1 : w.reference_count_ + 1 < 2 ^ 64 := by omega
      have hc := IncRef_count w
      rw [Nat.mod_eq_of_lt hb1] at hc
      obtain ⟨w1, hr, hi, he⟩ := ih w.IncRef.1 (IncRef_invariant w hb1 hinv)
        (by rw [hc]; exact hv) (by rw [hc]; omega)
      refine ⟨w1, ?_, hi, ?_⟩
      · simp only [WeakReference.run, WeakReference.step, hr]
      · rw [e1, e2, he, hc]; omega
    | DecRef =>
      have e1 : (Call.DecRef :: cs).count Call.IncRef = cs.count Call.IncRef := by
        simp [List.count_cons]
      have e2 : (Call.DecRef :: cs).count Call.DecRef = cs.count Call.DecRef + 1 := by
        simp [List.count_cons]
      rw [e1] at hb
      simp only [validFrom, Bool.and_eq_true, decide_eq_true_eq] at hv
      obtain ⟨h1, hv⟩ := hv
      obtain ⟨r, hr2, hc⟩ := DecRef_ok w h1
      obtain ⟨w1, hr, hi, he⟩ := ih w.DecRef.1 (DecRef_invariant w h1 hinv)
        (by rw [hc]; exact hv) (by rw [hc]; omega)
      refine ⟨w1, ?_, hi, ?_⟩
      · have hstep : w.step Call.DecRef = .ok w.DecRef.1 := by
          simp only [WeakReference.step]
          split
          · next w2 r2 heq => rw [heq]
          · next w2 e heq => rw [heq] at hr2; cases hr2
        simp only [WeakReference.run, hstep, hr]
      · rw [e1, e2]; omega
    | collect =>
      have e1 : (Call.collect :: cs).count Call.IncRef = cs.count Call.IncRef := by
        simp [List.count_cons]
      have e2 : (Call.collect :: cs).count Call.DecRef = cs.count Call.DecRef := by
        simp [List.count_cons]
      rw [e1] at hb
      simp only [validFrom] at hv
      obtain ⟨w1, hr, hi, he⟩ := ih w.collect (collect_invariant w hinv) hv hb
      refine ⟨w1, ?_, hi, ?_⟩
      · simp only [WeakReference.run, WeakReference.step, hr]
      · rw [e1, e2]; exact he

theorem run_cons (w : WeakReference) (c : Call) (cs : List Call) :
    w.run (c :: cs) = match w.step c with
      | .ok w1 => w1.run cs
      | .error e => .error e := rfl

theorem Create_invariant (target : Option Obj) : ModeInvariant (WeakReference.Create target) := by
  cases target <;>
    simp [WeakReference.Create, WeakReference.ctor, ModeInvariant, Global.SetWeak]

theorem mode_of_invariant (w : WeakReference) (hinv : ModeInvariant w)
    (hne : w.target_.IsEmpty = false) :
    (w.target_.IsStrong = true ↔ 0 < w.reference_count_) ∧
    (w.target_.IsWeak = true ↔ w.reference_count_ = 0) := by
  obtain ⟨t, c, k⟩ := w
  cases t with
  | empty => simp [Global.IsEmpty] at hne
  | strong o =>
    have h : 1 ≤ c := hinv
    simp [Global.IsStrong, Global.IsWeak]; omega
  | weak o =>
    have h : c = 0 := hinv
    simp [Global.IsStrong, Global.IsWeak, h]

theorem validFrom_replicate : ∀ (n k : Nat),
    validFrom k (List.replicate n Call.IncRef) = true := by
  intro n
  induction n with
  | zero => intro k; rfl
  | succ n ih => intro k; simp only [List.replicate_succ, validFrom]; exact ih (k + 1)

/-- Repeated `IncRef` on a handle that holds its target strongly: the target stays and
the count is the sum reduced modulo `2 ^ 64`. -/
theorem run_replicate_IncRef : ∀ (n : Nat) (w : WeakReference) (o : Obj),
    w.target_ = Global.strong o → w.reference_count_ < 2 ^ 64 →
    ∃ w1, w.run (List.replicate n Call.IncRef) = .ok w1 ∧ w1.target_ = Global.strong o ∧
      w1.reference_count_ = (w.reference_count_ + n) % 2 ^ 64 := by
  intro n
  induction n with
  | zero =>
    intro w o ht hc
    exact ⟨w, rfl, ht, by rw [Nat.add_zero, Nat.mod_eq_of_lt hc]⟩
  | succ n ih =>
    intro w o ht hc
    have hcount := IncRef_count w
    have htarget : w.IncRef.1.target_ = Global.strong o := by
      obtain ⟨t, c, k⟩ := w
      simp only at ht
      subst ht
      simp only [WeakReference.IncRef, Global.IsEmpty, Global.ClearWeak]
      split <;> simp
    obtain ⟨w1, hr, ht1, hc1⟩ := ih w.IncRef.1 o htarget
      (by rw [hcount]; exact Nat.mod_lt _ (by norm_num))
    refine ⟨w1, ?_, ht1, ?_⟩
    · simp only [List.replicate_succ, WeakReference.run, WeakReference.step, hr]
    · rw [hc1, hcount]
      omega

/-! ## The claims on the weak reference handle -/

/-- C1, as the code has it: for every handle made by `Create` and every valid interleaving
of `n` `IncRef` and `m` `DecRef` calls with fewer than `2 ^ 64` `IncRef` calls, garbage
collections in between allowed, the run ends without a fault, `m ≤ n`, the count is
`n - m`, and a target that is present is held strongly exactly when `n - m > 0` and
weakly exactly when `n - m = 0`. -/
theorem reference_count_after_calls (target : Option Obj) (cs : List Call)
    (hv : validFrom 0 cs = true) (hb : cs.count Call.IncRef < 2 ^ 64) :
    ∃ w, (WeakReference.Create target).run cs = .ok w ∧
      cs.count Call.DecRef ≤ cs.count Call.IncRef ∧
      w.reference_count_ = cs.count Call.IncRef - cs.count Call.DecRef ∧
      (w.target_.IsEmpty = false →
        (w.target_.IsStrong = true ↔ 0 < cs.count Call.IncRef - cs.count Call.DecRef) ∧
        (w.target_.IsWeak = true ↔ cs.count Call.IncRef - cs.count Call.DecRef = 0)) := by
  have h0 : (WeakReference.Create target).reference_count_ = 0 := by
    cases target <;> rfl
  obtain ⟨w, hr, hinv, hc⟩ := run_valid cs (WeakReference.Create target)
    (Create_invariant target) (by rw [h0]; exact hv) (by rw [h0]; omega)
  rw [h0] at hc
  have hcount : w.reference_count_ = cs.count Call.IncRef - cs.count Call.DecRef := by omega
  refine ⟨w, hr, by omega, hcount, ?_⟩
  intro hne
  rw [← hcount]
  exact mode_of_invariant w hinv hne

theorem reference_count_after_calls_witness :
    validFrom 0 [Call.IncRef, Call.IncRef, Call.DecRef, Call.collect, Call.DecRef, Call.IncRef]
      = true ∧
    ∃ w, (WeakReference.Create (some 7)).run
        [Call.IncRef, Call.IncRef, Call.DecRef, Call.collect, Call.DecRef, Call.IncRef] = .ok w ∧
      2 ≤ 3 ∧ w.reference_count_ = 3 - 2 ∧
      (w.target_.IsEmpty = false →
        (w.target_.IsStrong = true ↔ 0 < 3 - 2) ∧ (w.target_.IsWeak = true ↔ 3 - 2 = 0)) :=
  ⟨by decide, reference_count_after_calls (some 7)
    [Call.IncRef, Call.IncRef, Call.DecRef, Call.collect, Call.DecRef, Call.IncRef]
    (by decide) (by decide)⟩

/-- C1 as stated fails on the 64-bit counter: `2 ^ 64` calls of `IncRef` on a fresh handle
form a valid interleaving with `n = 2 ^ 64` and `m = 0`, and leave the count at `0` with
the target still held strongly. -/
theorem reference_count_wraps :
    validFrom 0 (List.replicate (2 ^ 64) Call.IncRef) = true ∧
    (List.replicate (2 ^ 64) Call.IncRef).count Call.IncRef = 2 ^ 64 ∧
    (List.replicate (2 ^ 64) Call.IncRef).count Call.DecRef = 0 ∧
    ∃ w, (WeakReference.Create (some 7)).run (List.replicate (2 ^ 64) Call.IncRef) = .ok w ∧
      w.reference_count_ = 0 ∧ w.target_ = Global.strong 7 := by
  refine ⟨validFrom_replicate _ 0, List.count_replicate_self _ _, ?_, ?_⟩
  · rw [List.count_replicate]; simp
  · have hsplit : List.replicate (2 ^ 64) Call.IncRef
        = Call.IncRef :: List.replicate (2 ^ 64 - 1) Call.IncRef := by
      have h := @List.replicate_succ Call Call.IncRef (2 ^ 64 - 1)
      have e : 2 ^ 64 - 1 + 1 = 2 ^ 64 := by norm_num
      rw [e] at h
      exact h
    obtain ⟨w, hr, ht, hc⟩ := run_replicate_IncRef (2 ^ 64 - 1) ⟨Global.strong 7, 1, 0⟩ 7 rfl
      (by norm_num)
    refine ⟨w, ?_, ?_, ht⟩
    · rw [hsplit]
      have hfirst : (WeakReference.Create (some 7)).step Call.IncRef
          = .ok ⟨Global.strong 7, 1, 0⟩ := rfl
      rw [run_cons, hfirst]
      exact hr
    · rw [hc]
      norm_num

/-- The conversion on integers around the values where a `double` starts to round. -/
theorem uint64ToDouble_samples :
    uint64ToDouble (2 ^ 53 - 1) = 2 ^ 53 - 1 ∧
    uint64ToDouble (2 ^ 53) = 2 ^ 53 ∧
    uint64ToDouble (2 ^ 53 + 1) = 2 ^ 53 ∧
    uint64ToDouble (2 ^ 53 + 2) = 2 ^ 53 + 2 ∧
    uint64ToDouble (2 ^ 53 + 3) = 2 ^ 53 + 4 ∧
    uint64ToDouble (2 ^ 54 - 1) = 2 ^ 54 ∧
    uint64ToDouble (2 ^ 63 + 1024) = 2 ^ 63 ∧
    uint64ToDouble (2 ^ 63 + 1025) = 2 ^ 63 + 2048 ∧
    uint64ToDouble (2 ^ 63 + 3072) = 2 ^ 63 + 4096 ∧
    uint64ToDouble (2 ^ 64 - 1) = 2 ^ 64 := by
  decide

/-- C3: `DecRef` is fatal exactly when the count is zero at the call, and the handle at
that abort is the handle before the call, count and storage mode included; on a fresh
handle `IncRef`, `IncRef`, `DecRef`, `DecRef` run without a fault through the counts
1, 2, 1, 0, and one more `DecRef` is fatal; with a target `o` the handle goes through
weak at 0, strong at 1, strong at 2, strong at 1, weak at 0, and the four calls return
1, 2, 1, 0. -/
theorem DecRef_fatal_iff (w : WeakReference) (target : Option Obj) :
    ((∃ e, w.DecRef.2 = .error e) ↔ w.reference_count_ = 0) ∧
    (w.reference_count_ = 0 → w.DecRef = (w, .error .checkFailed)) ∧
    (WeakReference.Create target).reference_count_ = 0 ∧
    (WeakReference.Create target).IncRef.1.reference_count_ = 1 ∧
    (WeakReference.Create target).IncRef.1.IncRef.1.reference_count_ = 2 ∧
    (∃ r, (WeakReference.Create target).IncRef.1.IncRef.1.DecRef.2 = .ok r) ∧
    (WeakReference.Create target).IncRef.1.IncRef.1.DecRef.1.reference_count_ = 1 ∧
    (∃ r, (WeakReference.Create target).IncRef.1.IncRef.1.DecRef.1.DecRef.2 = .ok r) ∧
    (WeakReference.Create target).IncRef.1.IncRef.1.DecRef.1.DecRef.1.reference_count_ = 0 ∧
    (WeakReference.Create target).IncRef.1.IncRef.1.DecRef.1.DecRef.1.DecRef.2
      = .error .checkFailed ∧
    (∀ o : Obj,
      WeakReference.Create (some o) = ⟨Global.weak o, 0, 0⟩ ∧
      (WeakReference.mk (Global.weak o) 0 0).IncRef = (⟨Global.strong o, 1, 0⟩, some 1) ∧
      (WeakReference.mk (Global.strong o) 1 0).IncRef = (⟨Global.strong o, 2, 0⟩, some 2) ∧
      (WeakReference.mk (Global.strong o) 2 0).DecRef = (⟨Global.strong o, 1, 0⟩, .ok (some 1)) ∧
      (WeakReference.mk (Global.strong o) 1 0).DecRef = (⟨Global.weak o, 0, 0⟩, .ok (some 0)) ∧
      (WeakReference.mk (Global.weak o) 0 0).DecRef
        = (⟨Global.weak o, 0, 0⟩, .error .checkFailed)) := by
  refine ⟨⟨?_, ?_⟩, ?_, ?_⟩
  · rintro ⟨e, he⟩
    by_contra hne
    obtain ⟨r, hr, _⟩ := DecRef_ok w (by omega)
    rw [hr] at he
    cases he
  · intro h0
    exact ⟨.checkFailed, by simp [WeakReference.DecRef, h0]⟩
  · intro h0
    simp [WeakReference.DecRef, h0]
  · have hmodes : ∀ o : Obj,
        WeakReference.Create (some o) = ⟨Global.weak o, 0, 0⟩ ∧
        (WeakReference.mk (Global.weak o) 0 0).IncRef = (⟨Global.strong o, 1, 0⟩, some 1) ∧
        (WeakReference.mk (Global.strong o) 1 0).IncRef = (⟨Global.strong o, 2, 0⟩, some 2) ∧
        (WeakReference.mk (Global.strong o) 2 0).DecRef
          = (⟨Global.strong o, 1, 0⟩, .ok (some 1)) ∧
        (WeakReference.mk (Global.strong o) 1 0).DecRef
          = (⟨Global.weak o, 0, 0⟩, .ok (some 0)) ∧
        (WeakReference.mk (Global.weak o) 0 0).DecRef
          = (⟨Global.weak o, 0, 0⟩, .error .checkFailed) :=
      fun o => ⟨rfl, rfl, rfl, rfl, rfl, rfl⟩
    cases target with
    | none => exact ⟨rfl, rfl, rfl, ⟨_, rfl⟩, rfl, ⟨_, rfl⟩, rfl, rfl, hmodes⟩
    | some o => exact ⟨rfl, rfl, rfl, ⟨_, rfl⟩, rfl, ⟨_, rfl⟩, rfl, rfl, hmodes⟩

theorem DecRef_fatal_iff_witness :
    (WeakReference.mk (Global.weak 7) 0 0).reference_count_ = 0 ∧
    (WeakReference.mk (Global.weak 7) 0 0).DecRef
      = (WeakReference.mk (Global.weak 7) 0 0, .error .checkFailed) :=
  ⟨rfl, (DecRef_fatal_iff (WeakReference.mk (Global.weak 7) 0 0) (some 7)).2.1 rfl⟩

/-- C4: for every handle and every snapshot data table, `PrepareForSerialization`,
`Serialize` and then `Deserialize` of the emitted record against the table run without a
fault and yield a handle whose `Get` returns what `Get` returned before the capture,
with the same count; a handle without a target is recorded with index 0; and a target
that is present is held strongly exactly when the count is at least one. -/
theorem snapshot_round_trip (h : WeakReference) (creator : SnapshotData) :
    ∃ h1 t1 h2 t2,
      h.PrepareForSerialization creator = .ok (h1, t1) ∧
      WeakReference.Deserialize t1 h1.Serialize = .ok (h2, t2) ∧
      h2.Get = h.Get ∧
      h2.reference_count_ = h.reference_count_ ∧
      (h.Get = none → h1.Serialize.target = 0 ∧ h2.Get = none) ∧
      (h2.target_.IsEmpty = false →
        (h2.target_.IsStrong = true ↔ 1 ≤ h.reference_count_) ∧
        (h2.target_.IsWeak = true ↔ h.reference_count_ = 0)) := by
  obtain ⟨t, c, k⟩ := h
  obtain ⟨slots⟩ := creator
  have hget : ∀ o : Obj, (slots ++ [some o])[slots.length]? = some (some o) := by
    intro o; simp
  cases t with
  | empty =>
    refine ⟨⟨Global.empty, c, 0⟩, ⟨slots⟩, WeakReference.ctor none c, ⟨slots⟩, rfl, rfl, rfl, rfl,
      fun _ => ⟨rfl, rfl⟩, ?_⟩
    intro hne
    simp [WeakReference.ctor, Global.IsEmpty] at hne
  | strong o =>
    refine ⟨⟨Global.empty, c, slots.length + 1⟩, ⟨slots ++ [some o]⟩,
      WeakReference.ctor (some o) c, ⟨(slots ++ [some o]).set slots.length none⟩, ?_, ?_, ?_, ?_,
      ?_, ?_⟩
    · simp [WeakReference.PrepareForSerialization, Global.IsEmpty, Global.Get,
        SnapshotData.AddData]
    · simp [WeakReference.Deserialize, WeakReference.Serialize,
        SnapshotData.GetDataFromSnapshotOnce, hget]
    · by_cases hc : c = 0 <;>
        simp [WeakReference.Get, WeakReference.ctor, Global.IsEmpty, Global.Get, Global.SetWeak, hc]
    · simp [WeakReference.ctor]
    · intro hn
      simp [WeakReference.Get, Global.IsEmpty, Global.Get] at hn
    · intro _
      by_cases hc : c = 0
      · simp [WeakReference.ctor, Global.SetWeak, Global.IsStrong, Global.IsWeak, hc]
      · simp [WeakReference.ctor, Global.SetWeak, Global.IsStrong, Global.IsWeak, hc]
        omega
  | weak o =>
    refine ⟨⟨Global.empty, c, slots.length + 1⟩, ⟨slots ++ [some o]⟩,
      WeakReference.ctor (some o) c, ⟨(slots ++ [some o]).set slots.length none⟩, ?_, ?_, ?_, ?_,
      ?_, ?_⟩
    · simp [WeakReference.PrepareForSerialization, Global.IsEmpty, Global.Get,
        SnapshotData.AddData]
    · simp [WeakReference.Deserialize, WeakReference.Serialize,
        SnapshotData.GetDataFromSnapshotOnce, hget]
    · by_cases hc : c = 0 <;>
        simp [WeakReference.Get, WeakReference.ctor, Global.IsEmpty, Global.Get, Global.SetWeak, hc]
    · simp [WeakReference.ctor]
    · intro hn
      simp [WeakReference.Get, Global.IsEmpty, Global.Get] at hn
    · intro _
      by_cases hc : c = 0
      · simp [WeakReference.ctor, Global.SetWeak, Global.IsStrong, Global.IsWeak, hc]
      · simp [WeakReference.ctor, Global.SetWeak, Global.IsStrong, Global.IsWeak, hc]
        omega

theorem snapshot_round_trip_witness :
    ∃ h1 t1 h2 t2,
      (WeakReference.mk (Global.weak 7) 0 0).PrepareForSerialization ⟨[some 3, none]⟩
        = .ok (h1, t1) ∧
      WeakReference.Deserialize t1 h1.Serialize = .ok (h2, t2) ∧
      h2.Get = some 7 ∧
      h2.reference_count_ = 0 ∧
      (some 7 = none → h1.Serialize.target = 0 ∧ h2.Get = none) ∧
      (h2.target_.IsEmpty = false →
        (h2.target_.IsStrong = true ↔ 1 ≤ 0) ∧ (h2.target_.IsWeak = true ↔ 0 = 0)) :=
  snapshot_round_trip (WeakReference.mk (Global.weak 7) 0 0) ⟨[some 3, none]⟩

end node.util
